import Mathlib

/-!
Verification development for the Workout Tracker application (src/app.js).

The JavaScript source is shallowly embedded as executable Lean definitions:

* Calendar dates carry no time-of-day component in the application's domain
  (workout dates are stored as "YYYY-MM-DDT00:00:00" local-midnight strings and
  the spec fixes time-zone-naive, whole-day semantics), so a date is modelled
  as the number of days since the Unix epoch (an Int).  Millisecond epoch
  arithmetic in the source (7 * 24 * 60 * 60 * 1000) becomes whole-day
  arithmetic (7).
* JavaScript numbers that hold weights are modelled as Rat; identifiers,
  set numbers and reps as Int.  Truthiness tests on parsed numeric inputs
  (parseInt(x) yields NaN or 0, both falsy) are modelled by comparing with 0,
  since NaN and 0 are observationally equal in every use the source makes of
  these fields.
* The in-memory collections (workouts, exercises, measurements, settings) are
  gathered in an AppState record; functions that mutate the globals become
  functions from AppState to AppState together with an outcome tag mirroring
  the early-return/toast structure of the source.
-/

/-- A single logged set: one row of the workout form
  (src/app.js addWorkout, lines 625-648). -/
structure SetEntry where
  exerciseName : String
  setNumber : Int
  reps : Int
  weight : Rat
  isSuperset : Bool
deriving DecidableEq, Repr

/-- A logged workout (src/app.js addWorkout, lines 677-683). -/
structure Workout where
  id : Int
  date : Int
  name : String
  notes : String
  exercises : List SetEntry
deriving DecidableEq, Repr

/-- An exercise-library entry (src/app.js addExerciseToLibrary, line 1045).
  The auto-add path (line 644) pushes objects without videoLink/disabled
  fields; the absent (undefined) fields are falsy in every use the source
  makes of them, so they are modelled as "" and false. -/
structure ExerciseDef where
  name : String
  category : String
  subcategory : String
  videoLink : String
  disabled : Bool
deriving DecidableEq, Repr

/-- A body measurement (src/app.js addMeasurement, lines 1282-1293);
  parseFloat(...) or null becomes Option Rat. -/
structure Measurement where
  id : Int
  date : Int
  weight : Option Rat
  bodyFat : Option Rat
  chest : Option Rat
  waist : Option Rat
  hips : Option Rat
  biceps : Option Rat
  thighs : Option Rat
  calves : Option Rat
deriving DecidableEq, Repr

/-- Application settings (src/app.js lines 7-13). -/
structure Settings where
  weekStartMonday : Bool
  autoAddExercises : Bool
  weightUnit : String
  theme : String
  manualStreakWeeks : Int
deriving DecidableEq, Repr

/-- The root document: the four global collections, which are also the unit
  of persistence (src/app.js autoSave, lines 160-165). -/
structure AppState where
  workouts : List Workout
  exercises : List ExerciseDef
  measurements : List Measurement
  settings : Settings
deriving DecidableEq, Repr

/-! ### String helpers

JavaScript's toLowerCase and trim, modelled as structurally recursive
functions over the character list (the core library versions are defined by
byte-position recursion, which the kernel cannot evaluate; these agree with
them on every string). -/

/-- Model of JavaScript String.prototype.toLowerCase: lowercase every
  character. -/
def jsToLower (s : String) : String := String.mk (s.data.map Char.toLower)

/-- Model of JavaScript String.prototype.trim: drop leading and trailing
  whitespace. -/
def jsTrim (s : String) : String :=
  String.mk (((s.data.dropWhile Char.isWhitespace).reverse.dropWhile
    Char.isWhitespace).reverse)

/-! ### Calendar-date arithmetic

Days-since-epoch of a civil date (proleptic Gregorian), the standard
era-based algorithm; used only to write concrete dates in examples the
same way the source receives them (as Y-M-D strings). -/

/-- Days since 1970-01-01 of the civil date y-m-d. -/
def daysFromCivil (y m d : Int) : Int :=
  let y' := if m ≤ 2 then y - 1 else y
  let era := (if 0 ≤ y' then y' else y' - 399) / 400
  let yoe := y' - era * 400
  let mp := (m + 9).emod 12
  let doy := (153 * mp + 2) / 5 + d - 1
  let doe := yoe * 365 + yoe / 4 - yoe / 100 + doy
  era * 146097 + doe - 719468

/-- Day of week of an epoch-day, JavaScript Date.getDay numbering
  (0 = Sunday .. 6 = Saturday); day 0 (1970-01-01) was a Thursday. -/
def jsDay (d : Int) : Int := (d + 4).emod 7

/-! ### Week streak engine (src/app.js calculateWeekStreak, lines 334-399) -/

/-- Start of the week containing day d (src/app.js getWeekNumber,
  lines 341-355): truncate to the configured week-start day.
  st is 1 when weekStartMonday, else 0 (line 343). -/
def weekKey (st : Int) (d : Int) : Int :=
  let diff := jsDay d - st
  let adjustedDiff := if diff < 0 then diff + 7 else diff
  d - adjustedDiff

/-- Week keys of all workouts, in workout order (lines 358-362). -/
def weekKeysOf (st : Int) (ws : List Workout) : List Int :=
  ws.map (fun w => weekKey st w.date)

/-- Distinct week keys sorted descending (lines 358-364).  The source first
  sorts the workouts by date, collects the keys into a Set and then sorts the
  resulting array numerically descending; the pre-sort of the workouts does
  not affect the resulting set, and since the keys are distinct there is
  exactly one descending arrangement, so sorting the deduplicated key list
  is the faithful embedding. -/
def uniqueWeeks (st : Int) (ws : List Workout) : List Int :=
  List.insertionSort (fun a b => b ≤ a) (weekKeysOf st ws).dedup

/-- The current-streak loop (lines 367-379): walk the descending key list,
  counting keys that match the expected week and moving the expectation one
  week back on each hit; stop at the first key strictly below the expected
  week; keys above the expected week (future weeks) are skipped. -/
def currentLoop : List Int → Int → Nat
  | [], _ => 0
  | k :: rest, check =>
    if k = check then currentLoop rest (check - 7) + 1
    else if k < check then 0
    else currentLoop rest check

/-- The best-streak scan (lines 382-394): fold over adjacent pairs of the
  descending key list carrying (bestStreak, tempStreak); a pair one week
  apart extends the run. -/
def bestScan : Int → List Int → Nat → Nat → Nat × Nat
  | _, [], best, temp => (best, temp)
  | prev, k :: rest, best, temp =>
    if prev - k = 7 then bestScan k rest (max best (temp + 1)) (temp + 1)
    else bestScan k rest best 1

/-- src/app.js calculateWeekStreak (lines 334-399), parameterised by the
  ambient current date (new Date() at line 368). -/
def calculateWeekStreak (ws : List Workout) (weekStartMonday : Bool) (today : Int) :
    Nat × Nat :=
  if ws = [] then (0, 0)
  else
    let st : Int := if weekStartMonday then 1 else 0
    let uw := uniqueWeeks st ws
    let current := currentLoop uw (weekKey st today)
    let best :=
      match uw with
      | [] => current
      | u :: rest =>
        let p := bestScan u rest 0 1
        max (max p.1 p.2) current
    (current, best)

/-! ### Encrypted persistence (src/app.js autoSave lines 159-172,
loadData lines 174-205)

The source serialises the four collections with JSON.stringify, encrypts the
text with CryptoJS.AES under the session passphrase, and stores the ciphertext
under the single record key 'workoutTrackerData'; loading reverses the chain.
The cipher composed with the serialiser is modelled ideally: a ciphertext is
the plaintext document paired with the key that encrypted it, decryption with
the same key recovers the document, and decryption with any other key fails
(in the source a wrong key makes the UTF-8 decode or JSON.parse throw, which
is caught at line 187).  JSON round-trips the model types exactly (all fields
are JSON-safe), so serialisation is the identity in the model. -/

/-- A stored ciphertext: aesEncrypt(JSON.stringify(doc), key) in the model. -/
structure Cipher where
  plain : AppState
  key : String
deriving DecidableEq, Repr

/-- JSON.parse of CryptoJS.AES.decrypt (src/app.js lines 185-186), idealised:
  the right key recovers the saved document, a wrong key throws (none). -/
def aesDecryptParse (c : Cipher) (key : String) : Option AppState :=
  if c.key = key then some c.plain else none

/-- src/app.js autoSave (lines 159-172): the value written under
  'workoutTrackerData'. -/
def autoSave (s : AppState) (key : String) : Cipher :=
  ⟨s, key⟩

/-- src/app.js getDefaultExercises (lines 207-233). -/
def getDefaultExercises : List ExerciseDef :=
  [⟨"Bench Press", "Chest", "Upper Chest", "", false⟩,
   ⟨"Incline Dumbbell Press", "Chest", "Upper Chest", "", false⟩,
   ⟨"Cable Flyes", "Chest", "Lower Chest", "", false⟩,
   ⟨"Squat", "Legs", "Quadriceps", "", false⟩,
   ⟨"Leg Press", "Legs", "Quadriceps", "", false⟩,
   ⟨"Romanian Deadlift", "Legs", "Hamstrings", "", false⟩,
   ⟨"Leg Curls", "Legs", "Hamstrings", "", false⟩,
   ⟨"Calf Raises", "Legs", "Calves", "", false⟩,
   ⟨"Deadlift", "Back", "Lower Back", "", false⟩,
   ⟨"Barbell Row", "Back", "Mid Back", "", false⟩,
   ⟨"Pull-ups", "Back", "Lats", "", false⟩,
   ⟨"Lat Pulldown", "Back", "Lats", "", false⟩,
   ⟨"Overhead Press", "Shoulders", "Front Delts", "", false⟩,
   ⟨"Lateral Raises", "Shoulders", "Side Delts", "", false⟩,
   ⟨"Face Pulls", "Shoulders", "Rear Delts", "", false⟩,
   ⟨"Barbell Curl", "Arms", "Biceps", "", false⟩,
   ⟨"Hammer Curls", "Arms", "Biceps", "", false⟩,
   ⟨"Tricep Dips", "Arms", "Triceps", "", false⟩,
   ⟨"Tricep Pushdown", "Arms", "Triceps", "", false⟩,
   ⟨"Planks", "Core", "Abs", "", false⟩,
   ⟨"Russian Twists", "Core", "Obliques", "", false⟩,
   ⟨"Running", "Cardio", "Running", "", false⟩,
   ⟨"Cycling", "Cardio", "Cycling", "", false⟩]

/-- src/app.js loadData (lines 174-205): read the stored record (none models
  an absent record), decrypt and parse, and assign the four globals.  On a
  decrypt/parse failure the catch at line 187 shows the toast and execution
  falls through to the default assignments at lines 193-196.  The per-field
  defaults (savedData?.workouts or [] and so on) only apply when savedData is
  null: a successfully parsed document saved by autoSave has all four fields,
  and in JavaScript arrays and objects are truthy even when empty, so the
  saved fields are restored verbatim.  The returned list collects the toasts
  shown. -/
def loadData (stored : Option Cipher) (key : String) (prevSettings : Settings) :
    AppState × List String :=
  match stored with
  | none => (⟨[], getDefaultExercises, [], prevSettings⟩, [])
  | some c =>
    match aesDecryptParse c key with
    | some d => (⟨d.workouts, d.exercises, d.measurements, d.settings⟩, [])
    | none =>
      (⟨[], getDefaultExercises, [], prevSettings⟩,
       ["Wrong key or corrupted data. Starting fresh."])

/-! ### Aggregate stats (src/app.js updateStats, lines 1206-1224) -/

/-- The workouts-this-month count (src/app.js lines 1220-1223): monthStart is
  the first of the month containing "now" (nowY-nowM-nowD) and a workout is
  counted when its date is on or after monthStart.  nowD plays no role in the
  count: the source applies no upper bound. -/
def monthWorkouts (ws : List Workout) (nowY nowM _nowD : Int) : Nat :=
  let monthStart := daysFromCivil nowY nowM 1
  (ws.filter (fun w => monthStart ≤ w.date)).length

/-! ### Personal records (src/app.js updatePersonalRecords, lines 1226-1275) -/

/-- A personal-record value: the fields stored at lines 1236-1240. -/
structure PRRec where
  weight : Rat
  reps : Int
  date : Int
deriving DecidableEq, Repr

/-- The effect of prs[name] = ... under the guard at line 1235 on the prs
  object, modelled as an association list in key-insertion order (JavaScript
  objects enumerate string keys in insertion order): an absent name is
  appended, a present one is overwritten in place when the new weight is
  strictly greater. -/
def prInsert (name : String) (r : PRRec) : List (String × PRRec) → List (String × PRRec)
  | [] => [(name, r)]
  | (n, p) :: rest =>
    if n = name then (if p.weight < r.weight then (n, r) else (n, p)) :: rest
    else (n, p) :: prInsert name r rest

/-- The nested forEach of src/app.js lines 1232-1244: every set entry with
  weight strictly greater than 0 is offered to prInsert. -/
def prCollect (ws : List Workout) : List (String × PRRec) :=
  ws.foldl
    (fun acc w =>
      w.exercises.foldl
        (fun acc2 e =>
          if 0 < e.weight then prInsert e.exerciseName ⟨e.weight, e.reps, w.date⟩ acc2
          else acc2)
        acc)
    []

/-- Case marker of a character: uppercase letters sort after everything else
  at the tertiary collation level. -/
def caseChar (c : Char) : Char := if c.isUpper then 'b' else 'a'

/-- String of case markers of a string. -/
def caseKey (s : String) : String := String.mk (s.data.map caseChar)

/-- Lexicographic (code-point) comparison of character lists. -/
def lexCmp : List Char → List Char → Ordering
  | [], [] => .eq
  | [], _ :: _ => .lt
  | _ :: _, [] => .gt
  | a :: as, b :: bs =>
    if a < b then .lt else if b < a then .gt else lexCmp as bs

/-- Model of the JavaScript comparator a.localeCompare(b), for ASCII strings
  under the default (root) collation used by browsers: the primary
  comparison is case-insensitive (lowercased code-point order) and strings
  equal up to case are ordered with lowercase letters before their uppercase
  forms (so 'a' sorts before 'B', unlike raw code-point order where 'B' is
  smaller). -/
def localeCmp (s t : String) : Ordering :=
  match lexCmp (jsToLower s).data (jsToLower t).data with
  | .eq => lexCmp (caseKey s).data (caseKey t).data
  | o => o

/-- The comparator being non-positive: s sorts no later than t. -/
def localeLe (s t : String) : Prop := localeCmp s t ≠ .gt

instance : DecidableRel localeLe := fun s t => by
  unfold localeLe; infer_instance

/-- src/app.js updatePersonalRecords (lines 1226-1246): the PR table rows,
  as (name, record) pairs in display order.  Line 1246 sorts the entries with
  a.localeCompare(b); since the comparator is a total order and the names are
  distinct keys, the stable Array.sort result is the unique sorted
  arrangement, embedded here by insertion sort over localeLe. -/
def updatePersonalRecords (ws : List Workout) : List (String × PRRec) :=
  List.insertionSort (fun a b => localeLe a.1 b.1) (prCollect ws)

/-! ### Logging workouts (src/app.js addWorkout, lines 614-696) -/

/-- One exercise row of the workout form after the numeric parses at lines
  626-630: parseInt yields NaN on an empty field and parseFloat is coalesced
  with 0; NaN and 0 are both falsy and the source only ever tests these
  fields for truthiness or stores them, so NaN is modelled as 0. -/
structure RowInput where
  exerciseName : String
  setNumber : Int
  reps : Int
  weight : Rat
  isSuperset : Bool
deriving DecidableEq, Repr

/-- The completeness guard at line 632: exerciseName, setNumber and reps all
  truthy. -/
def rowComplete (r : RowInput) : Bool :=
  r.exerciseName ≠ "" && r.setNumber ≠ 0 && r.reps ≠ 0

/-- The set entry pushed at lines 633-639. -/
def rowToEntry (r : RowInput) : SetEntry :=
  ⟨r.exerciseName, r.setNumber, r.reps, r.weight, r.isSuperset⟩

/-- One iteration of the row loop (lines 625-648) acting on the accumulated
  (exerciseList, exercises) pair: a complete row appends its entry and, when
  auto-add is enabled and no library entry has exactly that name, appends
  a library entry with category Other / subcategory General (lines 642-646);
  an incomplete row is skipped entirely. -/
def processRow (autoAdd : Bool) (acc : List SetEntry × List ExerciseDef)
    (r : RowInput) : List SetEntry × List ExerciseDef :=
  if rowComplete r then
    (acc.1 ++ [rowToEntry r],
     if autoAdd && !(acc.2.any (fun e => e.name = r.exerciseName)) then
       acc.2 ++ [⟨r.exerciseName, "Other", "General", "", false⟩]
     else acc.2)
  else acc

/-- Outcome tags mirroring the toasts / branches of addWorkout. -/
inductive AddOutcome
  | validationFailed
  | created
  | updated
  | editTargetMissing
deriving DecidableEq, Repr

/-- Replace the first element satisfying p by f of it, leaving the rest
  unchanged; models mutation of the object returned by Array.find. -/
def updateFirst {α : Type} (p : α → Bool) (f : α → α) : List α → List α
  | [] => []
  | x :: rest => if p x then f x :: rest else x :: updateFirst p f rest

/-- src/app.js addWorkout (lines 614-696), parameterised by Date.now()
  (nowMs, the fresh id at line 678) and by the form fields.  The row loop
  runs first; if it produced no complete entry the function returns with a
  toast at line 651 before any state was changed (no auto-add fired either,
  since auto-add only runs for complete rows).  Otherwise the editing branch
  replaces the fields of the workout with the stored editingId in place, and
  the creation branch appends a fresh workout. -/
def addWorkout (s : AppState) (nowMs : Int) (date : Int) (name notes : String)
    (editingId : Option Int) (rows : List RowInput) : AppState × AddOutcome :=
  let p := rows.foldl (processRow s.settings.autoAddExercises) ([], s.exercises)
  if p.1 = [] then (s, .validationFailed)
  else
    match editingId with
    | some eid =>
      if s.workouts.any (fun w => w.id = eid) then
        ({ s with
            workouts := updateFirst (fun w => w.id = eid)
              (fun w => { w with date := date, name := name, notes := notes,
                                 exercises := p.1 }) s.workouts,
            exercises := p.2 }, .updated)
      else ({ s with exercises := p.2 }, .editTargetMissing)
    | none =>
      ({ s with workouts := s.workouts ++ [⟨nowMs, date, name, notes, p.1⟩],
                exercises := p.2 }, .created)

/-! ### Exercise library operations (src/app.js lines 1030-1202) -/

/-- Outcome tags for addExerciseToLibrary. -/
inductive LibraryOutcome
  | emptyName
  | duplicate
  | added
deriving DecidableEq, Repr

/-- src/app.js addExerciseToLibrary (lines 1030-1051): trim the name, reject
  an empty name, reject a case-insensitive duplicate (line 1040), otherwise
  push the new entry. -/
def addExerciseToLibrary (s : AppState) (rawName category subcategory : String) :
    AppState × LibraryOutcome :=
  let name := jsTrim rawName
  if name = "" then (s, .emptyName)
  else if s.exercises.any (fun e => jsToLower e.name = jsToLower name) then
    (s, .duplicate)
  else
    ({ s with exercises := s.exercises ++ [⟨name, category, subcategory, "", false⟩] },
     .added)

/-- Outcome tags for saveExerciseEdit. -/
inductive EditOutcome
  | notFound
  | emptyName
  | duplicate
  | updated
deriving DecidableEq, Repr

/-- The per-entry rewrite at lines 1107-1111. -/
def renameEntry (oldName newName : String) (e : SetEntry) : SetEntry :=
  if e.exerciseName = oldName then { e with exerciseName := newName } else e

/-- src/app.js saveExerciseEdit (lines 1077-1119): find the exercise by its
  original (exact) name; reject an empty new name; when the new name differs
  from the original, reject if any library entry - including the one being
  renamed - matches the new name case-insensitively (line 1093); otherwise
  overwrite the found entry's fields and, when the name changed, rewrite
  every set entry of every workout that referenced the original name
  (lines 1105-1113). -/
def saveExerciseEdit (s : AppState)
    (originalName rawNewName newCategory newSubcategory rawVideoLink : String) :
    AppState × EditOutcome :=
  match s.exercises.find? (fun e => e.name = originalName) with
  | none => (s, .notFound)
  | some _ =>
    let newName := jsTrim rawNewName
    let newVideoLink := jsTrim rawVideoLink
    if newName = "" then (s, .emptyName)
    else if newName ≠ originalName ∧
        s.exercises.any (fun e => jsToLower e.name = jsToLower newName) = true then
      (s, .duplicate)
    else
      let exs := updateFirst (fun e => e.name = originalName)
        (fun e => { e with name := newName, category := newCategory,
                           subcategory := newSubcategory, videoLink := newVideoLink })
        s.exercises
      let ws :=
        if newName ≠ originalName then
          s.workouts.map
            (fun w => { w with exercises := w.exercises.map (renameEntry originalName newName) })
        else s.workouts
      ({ s with exercises := exs, workouts := ws }, .updated)

/-- src/app.js deleteExercise (lines 1195-1202), after the confirm dialog:
  remove every library entry with exactly that name; nothing else is
  touched. -/
def deleteExercise (s : AppState) (name : String) : AppState :=
  { s with exercises := s.exercises.filter (fun e => e.name ≠ name) }

/-! ### Specification-side definitions

These render the spec's descriptions of the derived statistics, written from
the spec's words rather than from the source, to be compared with the
embedded code above. -/

/-- Spec-side: length of the run starting at the head of a week-key list in
  which consecutive keys differ by exactly 7 days. -/
def chainLen : List Int → Nat
  | [] => 0
  | [_] => 1
  | a :: b :: t => if a - b = 7 then chainLen (b :: t) + 1 else 1

/-- Spec-side: the longest run, over a descending list of distinct week keys,
  in which consecutive keys differ by exactly 7 days (the maximum over all
  suffixes of the run length at the suffix head). -/
def longestRunSpec : List Int → Nat
  | [] => 0
  | a :: t => max (chainLen (a :: t)) (longestRunSpec t)

/-- Spec-side: the stream of (exerciseName, candidate record) pairs with
  weight strictly positive, in original workout/set iteration order. -/
def prStream (ws : List Workout) : List (String × PRRec) :=
  ws.flatMap (fun w =>
    (w.exercises.filter (fun e => 0 < e.weight)).map
      (fun e => (e.exerciseName, (⟨e.weight, e.reps, w.date⟩ : PRRec))))

/-- Spec-side: the positive-weight candidate records of one exercise, in
  iteration order. -/
def entriesFor (name : String) (ws : List Workout) : List PRRec :=
  ((prStream ws).filter (fun x => x.1 = name)).map Prod.snd

/-- Combine a running record with one more candidate: strictly heavier wins,
  ties keep the earlier record. -/
def prBetter (acc : Option PRRec) (r : PRRec) : Option PRRec :=
  match acc with
  | none => some r
  | some p => if p.weight < r.weight then some r else some p

/-- Spec-side: the first record of maximum weight in a candidate list. -/
def firstMax (l : List PRRec) : Option PRRec := l.foldl prBetter none

/-- Lookup in an association list of PR entries by exercise name. -/
def lookupName (name : String) : List (String × PRRec) → Option PRRec
  | [] => none
  | (n, p) :: rest => if n = name then some p else lookupName name rest

/-! ### Concrete fixtures used by the example and counterexample theorems -/

/-- Default settings object (src/app.js lines 7-13). -/
def defaultSettings : Settings := ⟨false, true, "lbs", "default", 0⟩

/-- Workouts on Monday 2024-01-01 and Monday 2024-01-08 (spec section 8,
  streak example). -/
def streakExampleWorkouts : List Workout :=
  [⟨1, daysFromCivil 2024 1 1, "A", "", [⟨"Squat", 1, 5, 100, false⟩]⟩,
   ⟨2, daysFromCivil 2024 1 8, "B", "", [⟨"Squat", 1, 5, 105, false⟩]⟩]

/-- Workouts holding Squat sets with weights 100, 0, 120, 80 in
  chronological order (spec section 8, PR example). -/
def squatExampleWorkouts : List Workout :=
  [⟨1, daysFromCivil 2024 1 2, "W1", "",
     [⟨"Squat", 1, 5, 100, false⟩, ⟨"Squat", 2, 12, 0, false⟩]⟩,
   ⟨2, daysFromCivil 2024 1 4, "W2", "",
     [⟨"Squat", 1, 3, 120, false⟩, ⟨"Squat", 2, 8, 80, false⟩]⟩]

/-- One workout holding sets of two exercises whose names differ in case
  class, "a" and "B". -/
def mixedCaseWorkouts : List Workout :=
  [⟨1, daysFromCivil 2024 1 2, "W", "",
     [⟨"a", 1, 5, 50, false⟩, ⟨"B", 1, 5, 60, false⟩]⟩]

/-- A state whose library holds exactly the exercise Squat and whose single
  workout references it. -/
def squatOnlyState : AppState :=
  ⟨[⟨1, daysFromCivil 2024 1 2, "W", "", [⟨"Squat", 1, 5, 100, false⟩]⟩],
   [⟨"Squat", "Legs", "Quadriceps", "", false⟩],
   [], defaultSettings⟩

/-- A workout dated 2024-01-31. -/
def futureWorkout : Workout :=
  ⟨1, daysFromCivil 2024 1 31, "W", "", [⟨"Squat", 1, 5, 100, false⟩]⟩

/-- A complete workout-form row. -/
def goodRow : RowInput := ⟨"Squat", 1, 5, 100, false⟩

/-- A row missing its exercise name, set number and reps. -/
def badRow : RowInput := ⟨"", 0, 0, 0, false⟩

/-- A complete row whose name is a case variant of the library's Squat. -/
def lowercaseSquatRow : RowInput := ⟨"squat", 1, 5, 100, false⟩

/-- Fold a candidate stream into a PR association list; the shape prCollect
  is proven equal to. -/
def prFoldStream (l : List (String × PRRec)) (acc : List (String × PRRec)) :
    List (String × PRRec) :=
  l.foldl (fun a x => prInsert x.1 x.2 a) acc

instance : IsTotal Int (fun a b => b ≤ a) := ⟨fun a b => le_total b a⟩

instance : IsTrans Int (fun a b => b ≤ a) := ⟨fun _ _ _ h h2 => le_trans h2 h⟩


/-! ## Theorems

One theorem per claim of the specification, with witnesses at concrete
inputs, and counterexample theorems where the code diverges from the
claimed behaviour. -/

/-- C10: deleteExercise affects the exercise library only.  After deleting a
  name, the library holds no entry with that exact name while every other
  library entry survives, and the workouts, measurements and settings
  collections are unchanged (historical SetEntry.exerciseName values are
  untouched; no cascade). -/
theorem deleteExercise_frame_spec (s : AppState) (name : String) :
    ((deleteExercise s name).exercises.all (fun e => e.name ≠ name)) = true ∧
    (∀ e ∈ s.exercises, e.name ≠ name → e ∈ (deleteExercise s name).exercises) ∧
    (deleteExercise s name).workouts = s.workouts ∧
    (deleteExercise s name).measurements = s.measurements ∧
    (deleteExercise s name).settings = s.settings := by
  refine ⟨?_, ?_, rfl, rfl, rfl⟩
  · simp only [deleteExercise, List.all_eq_true, List.mem_filter, decide_eq_true_eq]
    intro e he
    exact he.2
  · intro e he hne
    simp only [deleteExercise, List.mem_filter, decide_eq_true_eq]
    exact ⟨he, hne⟩

/-- Witness for the C10 frame theorem: deleting Squat from the concrete
  state removes it from the library and leaves the workout that references
  it intact. -/
theorem deleteExercise_frame_spec_witness :
    ((deleteExercise squatOnlyState "Squat").exercises.all
      (fun e => e.name ≠ "Squat")) = true ∧
    (deleteExercise squatOnlyState "Squat").workouts = squatOnlyState.workouts :=
  ⟨(deleteExercise_frame_spec squatOnlyState "Squat").1,
   (deleteExercise_frame_spec squatOnlyState "Squat").2.2.1⟩

/-- C7: round-trip persistence.  For every root document and passphrase,
  autoSave (serialise, encrypt, store under the single record key) followed
  by loadData with the same passphrase restores a document deep-equal to the
  one saved, with no toast. -/
theorem saveLoad_roundtrip (s : AppState) (key : String) (prev : Settings) :
    loadData (some (autoSave s key)) key prev = (s, []) := by
  simp [loadData, autoSave, aesDecryptParse]

/-- Witness for the C7 round-trip theorem at a concrete document. -/
theorem saveLoad_roundtrip_witness :
    loadData (some (autoSave squatOnlyState "hunter2")) "hunter2" defaultSettings
      = (squatOnlyState, []) :=
  saveLoad_roundtrip squatOnlyState "hunter2" defaultSettings

/-- C6 (amended): loadData with a wrong passphrase does not surface a
  distinct decryption error; it shows the toast and proceeds with the
  empty/default collections, producing exactly the in-memory state it
  produces when no document is stored at all. -/
theorem loadData_wrongKey_spec (s : AppState) (key wrong : String) (prev : Settings)
    (h : key ≠ wrong) :
    loadData (some (autoSave s key)) wrong prev
      = (⟨[], getDefaultExercises, [], prev⟩,
         ["Wrong key or corrupted data. Starting fresh."]) ∧
    (loadData (some (autoSave s key)) wrong prev).1 = (loadData none wrong prev).1 := by
  constructor <;> simp [loadData, autoSave, aesDecryptParse, h]

/-- Witness for the C6 amended theorem at concrete keys. -/
theorem loadData_wrongKey_spec_witness :
    loadData (some (autoSave squatOnlyState "hunter2")) "password" defaultSettings
      = (⟨[], getDefaultExercises, [], defaultSettings⟩,
         ["Wrong key or corrupted data. Starting fresh."]) :=
  (loadData_wrongKey_spec squatOnlyState "hunter2" "password" defaultSettings
    (by decide)).1

/-- C6 counterexample: loading a saved non-empty document with a wrong
  passphrase yields empty collections, indistinguishable (except for the
  toast) from the no-document case - the load substitutes empty/default
  data instead of reporting a distinct decryption error to the caller. -/
theorem loadData_wrongKey_cex :
    squatOnlyState.workouts ≠ [] ∧
    (loadData (some (autoSave squatOnlyState "hunter2")) "password"
      defaultSettings).1.workouts = [] ∧
    (loadData (some (autoSave squatOnlyState "hunter2")) "password"
      defaultSettings).1
      = (loadData none "password" defaultSettings).1 := by
  refine ⟨by decide, rfl, rfl⟩

/-- C8 (amended): the workouts-this-month statistic counts exactly the
  workouts dated on or after the first of the current month, with no upper
  bound: appending one workout to the list raises the count by one precisely
  when its date is on or after the month start, regardless of its relation
  to the current day. -/
theorem monthWorkouts_spec (ws : List Workout) (w : Workout) (y m d : Int) :
    monthWorkouts (ws ++ [w]) y m d
      = monthWorkouts ws y m d
        + (if daysFromCivil y m 1 ≤ w.date then 1 else 0) := by
  simp only [monthWorkouts, List.filter_append, List.length_append]
  by_cases h : daysFromCivil y m 1 ≤ w.date
  · simp [h]
  · simp [h]

/-- Witness for the C8 amended theorem at a concrete list and date. -/
theorem monthWorkouts_spec_witness :
    monthWorkouts ([] ++ [futureWorkout]) 2024 1 15
      = monthWorkouts [] 2024 1 15
        + (if daysFromCivil 2024 1 1 ≤ futureWorkout.date then 1 else 0) :=
  monthWorkouts_spec [] futureWorkout 2024 1 15

/-- C8 counterexample: with "now" being 2024-01-15, a workout dated
  2024-01-31 - strictly after now - is counted by the code, though the
  claim says a workout dated after now is not counted. -/
theorem monthWorkouts_future_cex :
    monthWorkouts [futureWorkout] 2024 1 15 = 1 ∧
    daysFromCivil 2024 1 15 < futureWorkout.date := by decide

/-- The entries accumulated by the row loop are exactly the complete rows,
  in order, appended to the accumulator. -/
theorem processRow_fst (autoAdd : Bool) :
    ∀ (rows : List RowInput) (acc : List SetEntry × List ExerciseDef),
      (rows.foldl (processRow autoAdd) acc).1
        = acc.1 ++ (rows.filter rowComplete).map rowToEntry := by
  intro rows
  induction rows with
  | nil => intro acc; simp
  | cons r rest ih =>
    intro acc
    rw [List.foldl_cons, ih]
    by_cases h : rowComplete r
    · simp [processRow, h, List.filter_cons]
    · simp [processRow, h, List.filter_cons]

/-- C5 (amended): addWorkout does not reject a submission because some entry
  is incomplete; it silently drops every row lacking exerciseName, setNumber
  or reps.  It fails with the validation toast, leaving the state unchanged,
  exactly when no row at all is complete (in particular for an empty
  sequence); otherwise it records a workout holding exactly the complete
  rows, in order. -/
theorem addWorkout_filter_spec (s : AppState) (nowMs date : Int) (nm notes : String)
    (rows : List RowInput) :
    (rows.filter rowComplete = [] →
      addWorkout s nowMs date nm notes none rows = (s, .validationFailed)) ∧
    (rows.filter rowComplete ≠ [] →
      (addWorkout s nowMs date nm notes none rows).2 = .created ∧
      (addWorkout s nowMs date nm notes none rows).1.workouts
        = s.workouts
          ++ [⟨nowMs, date, nm, notes, (rows.filter rowComplete).map rowToEntry⟩]) := by
  have hfst := processRow_fst s.settings.autoAddExercises rows ([], s.exercises)
  rw [List.nil_append] at hfst
  constructor
  · intro h
    simp only [addWorkout, hfst, h, List.map_nil, if_pos]
  · intro h
    have hmap : (rows.filter rowComplete).map rowToEntry ≠ [] := by
      simpa using h
    simp only [addWorkout, hfst]
    rw [if_neg hmap]
    exact ⟨rfl, rfl⟩

/-- Witness for the C5 amended theorem: a single incomplete row is rejected
  with the state unchanged. -/
theorem addWorkout_filter_spec_witness :
    addWorkout squatOnlyState 7 0 "N" "" none [badRow]
      = (squatOnlyState, .validationFailed) :=
  (addWorkout_filter_spec squatOnlyState 7 0 "N" "" [badRow]).1 (by decide)

/-- C5 counterexample: a submission containing an entry that lacks
  exerciseName, setNumber and reps is not rejected: the complete row is
  recorded and the workouts collection grows, though the claim says any such
  submission fails with a validation error and leaves workouts unchanged. -/
theorem addWorkout_partialInvalid_cex :
    rowComplete badRow = false ∧
    (addWorkout squatOnlyState 42 (daysFromCivil 2024 1 3) "W" "" none
      [goodRow, badRow]).2 = .created ∧
    (addWorkout squatOnlyState 42 (daysFromCivil 2024 1 3) "W" "" none
      [goodRow, badRow]).1.workouts ≠ squatOnlyState.workouts := by decide

/-- The row loop never inserts a library name that is already present with
  exactly the same spelling, so it preserves exact-name distinctness of the
  library. -/
theorem processRow_names_nodup (autoAdd : Bool) :
    ∀ (rows : List RowInput) (acc : List SetEntry × List ExerciseDef),
      (acc.2.map (fun e => e.name)).Nodup →
      ((rows.foldl (processRow autoAdd) acc).2.map (fun e => e.name)).Nodup := by
  intro rows
  induction rows with
  | nil => intro acc h; simpa using h
  | cons r rest ih =>
    intro acc h
    rw [List.foldl_cons]
    apply ih
    by_cases hc : rowComplete r
    · simp only [processRow, hc, if_pos]
      by_cases ha : (autoAdd && !(acc.2.any (fun e => e.name = r.exerciseName))) = true
      · rw [if_pos ha]
        have hnot : ∀ x ∈ acc.2, ¬ x.name = r.exerciseName := by
          intro x hx hxe
          rw [Bool.and_eq_true, Bool.not_eq_true'] at ha
          have : acc.2.any (fun e => e.name = r.exerciseName) = true :=
            List.any_eq_true.mpr ⟨x, hx, by simp [hxe]⟩
          rw [ha.2] at this
          exact Bool.false_ne_true this
        simpa [List.nodup_append] using ⟨h, hnot⟩
      · rw [if_neg ha]; exact h
    · simpa [processRow, hc] using h

/-- C9 (amended): addExerciseToLibrary enforces case-insensitive uniqueness
  of exercise names - it reports a duplicate and leaves the state unchanged
  whenever any library entry matches the (trimmed) new name up to case, and
  it preserves case-insensitive distinctness of the library.  The auto-add
  path of addWorkout, however, checks exact equality only: it preserves only
  exact-name distinctness and can insert a case variant of an existing
  name. -/
theorem exerciseNameUniqueness_spec :
    (∀ (s : AppState) (name cat sub : String),
      jsTrim name ≠ "" →
      s.exercises.any (fun e => jsToLower e.name = jsToLower (jsTrim name)) = true →
      addExerciseToLibrary s name cat sub = (s, .duplicate)) ∧
    (∀ (s : AppState) (name cat sub : String),
      ((s.exercises.map (fun e => jsToLower e.name)).Nodup) →
      (((addExerciseToLibrary s name cat sub).1.exercises.map
        (fun e => jsToLower e.name)).Nodup)) ∧
    (∀ (s : AppState) (nowMs date : Int) (nm notes : String) (eid : Option Int)
        (rows : List RowInput),
      ((s.exercises.map (fun e => e.name)).Nodup) →
      (((addWorkout s nowMs date nm notes eid rows).1.exercises.map
        (fun e => e.name)).Nodup)) := by
  refine ⟨?_, ?_, ?_⟩
  · intro s name cat sub hne hdup
    simp only [addExerciseToLibrary]
    rw [if_neg hne, if_pos hdup]
  · intro s name cat sub h
    simp only [addExerciseToLibrary]
    by_cases hne : jsTrim name = ""
    · rw [if_pos hne]; exact h
    · rw [if_neg hne]
      by_cases hdup : s.exercises.any
          (fun e => jsToLower e.name = jsToLower (jsTrim name)) = true
      · rw [if_pos hdup]; exact h
      · rw [if_neg hdup]
        have hnot : ∀ x ∈ s.exercises, ¬ jsToLower x.name = jsToLower (jsTrim name) := by
          intro x hx hxe
          exact hdup (List.any_eq_true.mpr ⟨x, hx, by simp [hxe]⟩)
        simpa [List.nodup_append] using ⟨h, hnot⟩
  · intro s nowMs date nm notes eid rows h
    have hp := processRow_names_nodup s.settings.autoAddExercises rows
      ([], s.exercises) (by simpa using h)
    simp only [addWorkout]
    split
    · exact h
    · cases eid with
      | none => exact hp
      | some eid2 =>
        dsimp only
        split <;> exact hp

/-- Witness for the C9 amended theorem: an uppercase variant of an existing
  name is rejected as a duplicate by addExerciseToLibrary. -/
theorem exerciseNameUniqueness_spec_witness :
    addExerciseToLibrary squatOnlyState "SQUAT" "Legs" "Quadriceps"
      = (squatOnlyState, .duplicate) :=
  exerciseNameUniqueness_spec.1 squatOnlyState "SQUAT" "Legs" "Quadriceps"
    (by decide) (by decide)

/-- The distinct descending week-key list holds exactly the week keys of the
  workouts. -/
theorem mem_uniqueWeeks (st : Int) (ws : List Workout) (x : Int) :
    x ∈ uniqueWeeks st ws ↔ x ∈ weekKeysOf st ws := by
  unfold uniqueWeeks
  rw [(List.perm_insertionSort _ _).mem_iff, List.mem_dedup]

/-- The distinct week-key list is strictly descending. -/
theorem uniqueWeeks_sorted (st : Int) (ws : List Workout) :
    (uniqueWeeks st ws).Pairwise (fun a b => b < a) := by
  have hs : (uniqueWeeks st ws).Pairwise (fun a b : Int => b ≤ a) :=
    List.sorted_insertionSort _ _
  have hn : (uniqueWeeks st ws).Nodup :=
    ((List.perm_insertionSort _ _).nodup_iff).mpr (List.nodup_dedup _)
  exact (hs.and hn).imp (fun h => lt_of_le_of_ne h.1 (fun hba => h.2 hba.symm))

/-- Characterisation of the current-streak loop on a strictly descending
  list: it returns the count of consecutive expected weeks present, i.e. the
  least n such that check minus n weeks is absent. -/
theorem currentLoop_spec :
    ∀ (uw : List Int), uw.Pairwise (fun a b => b < a) → ∀ check : Int,
      (∀ j : Nat, j < currentLoop uw check → (check - 7 * j) ∈ uw) ∧
      ((check - 7 * (currentLoop uw check : Int)) ∉ uw) := by
  intro uw
  induction uw with
  | nil =>
    intro _ check
    exact ⟨fun j hj => by simp [currentLoop] at hj, by simp⟩
  | cons k rest ih =>
    intro hp check
    have hrest := List.Pairwise.of_cons hp
    have hhead : ∀ x ∈ rest, x < k := (List.pairwise_cons.mp hp).1
    by_cases hk : k = check
    · subst hk
      have hloop : currentLoop (k :: rest) k = currentLoop rest (k - 7) + 1 := by
        simp [currentLoop]
      obtain ⟨ih1, ih2⟩ := ih hrest (k - 7)
      rw [hloop]
      constructor
      · intro j hj
        cases j with
        | zero => simp
        | succ j2 =>
          have hj2 : j2 < currentLoop rest (k - 7) := by omega
          have hmem := ih1 j2 hj2
          have harith : k - 7 * ((j2 : Int) + 1) = (k - 7) - 7 * j2 := by ring
          rw [List.mem_cons]
          right
          push_cast
          rw [harith]
          exact hmem
      · intro hmem
        rcases List.mem_cons.mp hmem with h | h
        · omega
        · apply ih2
          have harith : (k - 7) - 7 * (currentLoop rest (k - 7) : Int)
              = k - 7 * ((currentLoop rest (k - 7) : Int) + 1) := by ring
          rw [harith]
          push_cast at h ⊢
          exact h
    · by_cases hlt : k < check
      · have hloop : currentLoop (k :: rest) check = 0 := by
          simp [currentLoop, hk, hlt]
        rw [hloop]
        refine ⟨fun j hj => by omega, ?_⟩
        intro hmem
        simp only [Nat.cast_zero, mul_zero, sub_zero] at hmem
        rcases List.mem_cons.mp hmem with h | h
        · exact hk h.symm
        · exact absurd (hhead _ h) (by omega)
      · have hgt : check < k := by
          rcases lt_trichotomy k check with h | h | h
          · exact absurd h hlt
          · exact absurd h hk
          · exact h
        have hloop : currentLoop (k :: rest) check = currentLoop rest check := by
          simp [currentLoop, hk, hlt]
        obtain ⟨ih1, ih2⟩ := ih hrest check
        rw [hloop]
        constructor
        · intro j hj
          exact List.mem_cons.mpr (Or.inr (ih1 j hj))
        · intro hmem
          rcases List.mem_cons.mp hmem with h | h
          · have hc : (0 : Int) ≤ 7 * (currentLoop rest check : Int) := by positivity
            omega
          · exact ih2 h

/-- C3: the current streak equals the walk the spec describes.  For every
  workout list, week-start setting and current date: every one of the first
  current weeks counted backward from the week containing now is the week
  key of some workout, the next expected week is not (so the walk stopped at
  the first gap or at exhaustion), and if now's week has no workout the
  current streak is 0.  In particular the spec's concrete example holds:
  workouts on 2024-01-01 and 2024-01-08 with weekStartMonday give (2, 2)
  when now is 2024-01-08 and (0, 2) when now is 2024-01-22. -/
theorem calculateWeekStreak_current_spec (ws : List Workout) (wsm : Bool) (today : Int) :
    ((∀ j : Nat, j < (calculateWeekStreak ws wsm today).1 →
        (weekKey (if wsm then 1 else 0) today - 7 * j)
          ∈ weekKeysOf (if wsm then 1 else 0) ws) ∧
      ((weekKey (if wsm then 1 else 0) today
          - 7 * ((calculateWeekStreak ws wsm today).1 : Int))
        ∉ weekKeysOf (if wsm then 1 else 0) ws) ∧
      (weekKey (if wsm then 1 else 0) today ∉ weekKeysOf (if wsm then 1 else 0) ws →
        (calculateWeekStreak ws wsm today).1 = 0)) ∧
    calculateWeekStreak streakExampleWorkouts true (daysFromCivil 2024 1 8) = (2, 2) ∧
    calculateWeekStreak streakExampleWorkouts true (daysFromCivil 2024 1 22) = (0, 2) := by
  refine ⟨?_, by decide, by decide⟩
  by_cases hws : ws = []
  · subst hws
    refine ⟨?_, ?_, ?_⟩
    · intro j hj
      simp [calculateWeekStreak] at hj
    · simp [calculateWeekStreak, weekKeysOf]
    · intro _
      simp [calculateWeekStreak]
  · have hcur : (calculateWeekStreak ws wsm today).1
        = currentLoop (uniqueWeeks (if wsm then 1 else 0) ws)
            (weekKey (if wsm then 1 else 0) today) := by
      simp [calculateWeekStreak, hws]
    obtain ⟨h1, h2⟩ := currentLoop_spec _ (uniqueWeeks_sorted (if wsm then 1 else 0) ws)
      (weekKey (if wsm then 1 else 0) today)
    rw [hcur]
    refine ⟨?_, ?_, ?_⟩
    · intro j hj
      exact (mem_uniqueWeeks _ _ _).mp (h1 j hj)
    · intro hmem
      exact h2 ((mem_uniqueWeeks _ _ _).mpr hmem)
    · intro hnot
      by_contra hz
      have h0 : 0 < currentLoop (uniqueWeeks (if wsm then 1 else 0) ws)
          (weekKey (if wsm then 1 else 0) today) := Nat.pos_of_ne_zero hz
      have := (mem_uniqueWeeks _ _ _).mp (h1 0 h0)
      simp only [Nat.cast_zero, mul_zero, sub_zero] at this
      exact hnot this

/-- Witness for the C3 theorem: at the concrete example, week 0 back from
  now is present, and the overall result is (2, 2). -/
theorem calculateWeekStreak_current_spec_witness :
    ((weekKey (if true then 1 else 0) (daysFromCivil 2024 1 8) - 7 * (0 : Nat))
      ∈ weekKeysOf (if true then 1 else 0) streakExampleWorkouts) ∧
    calculateWeekStreak streakExampleWorkouts true (daysFromCivil 2024 1 8) = (2, 2) := by
  refine ⟨?_, (calculateWeekStreak_current_spec streakExampleWorkouts true
    (daysFromCivil 2024 1 8)).2.1⟩
  exact (calculateWeekStreak_current_spec streakExampleWorkouts true
    (daysFromCivil 2024 1 8)).1.1 0 (by decide)

/-- Lexicographic comparison is .eq exactly on equal lists. -/
theorem lexCmp_eq_iff : ∀ a b : List Char, lexCmp a b = .eq ↔ a = b := by
  intro a
  induction a with
  | nil => intro b; cases b <;> simp [lexCmp]
  | cons x as ih =>
    intro b
    cases b with
    | nil => simp [lexCmp]
    | cons y bs =>
      simp only [lexCmp]
      rcases lt_trichotomy x y with h | h | h
      · rw [if_pos h]
        simp [h.ne]
      · subst h
        rw [if_neg (lt_irrefl x), if_neg (lt_irrefl x)]
        simp [ih bs]
      · rw [if_neg (lt_asymm h), if_pos h]
        simp [h.ne']

/-- Lexicographic comparison of swapped arguments is the swapped result. -/
theorem lexCmp_swap : ∀ a b : List Char, lexCmp b a = (lexCmp a b).swap := by
  intro a
  induction a with
  | nil => intro b; cases b <;> rfl
  | cons x as ih =>
    intro b
    cases b with
    | nil => rfl
    | cons y bs =>
      simp only [lexCmp]
      rcases lt_trichotomy x y with h | h | h
      · rw [if_neg (lt_asymm h), if_pos h, if_pos h]
        rfl
      · subst h
        rw [if_neg (lt_irrefl x), if_neg (lt_irrefl x), if_neg (lt_irrefl x),
          if_neg (lt_irrefl x)]
        exact ih bs
      · rw [if_pos h, if_neg (lt_asymm h), if_pos h]
        rfl

/-- Strict lexicographic comparison is transitive. -/
theorem lexCmp_lt_trans :
    ∀ a b c : List Char, lexCmp a b = .lt → lexCmp b c = .lt → lexCmp a c = .lt := by
  have inv : ∀ (p q : Char) (u v : List Char),
      (if p < q then Ordering.lt else if q < p then Ordering.gt else lexCmp u v)
        = .lt →
      p < q ∨ (p = q ∧ lexCmp u v = .lt) := by
    intro p q u v h
    by_cases hpq : p < q
    · exact Or.inl hpq
    · rw [if_neg hpq] at h
      by_cases hqp : q < p
      · rw [if_pos hqp] at h
        exact absurd h (by simp)
      · rw [if_neg hqp] at h
        exact Or.inr ⟨le_antisymm (not_lt.mp hqp) (not_lt.mp hpq), h⟩
  intro a
  induction a with
  | nil =>
    intro b c hab hbc
    cases c with
    | nil =>
      cases b with
      | nil => simp [lexCmp] at hab
      | cons y bs => simp [lexCmp] at hbc
    | cons z cs => simp [lexCmp]
  | cons x as ih =>
    intro b c hab hbc
    cases b with
    | nil => simp [lexCmp] at hab
    | cons y bs =>
      cases c with
      | nil => simp [lexCmp] at hbc
      | cons z cs =>
        simp only [lexCmp] at hab hbc ⊢
        rcases inv x y as bs hab with h1 | ⟨he1, h1⟩
        · rcases inv y z bs cs hbc with h2 | ⟨he2, h2⟩
          · rw [if_pos (lt_trans h1 h2)]
          · subst he2
            rw [if_pos h1]
        · subst he1
          rcases inv x z bs cs hbc with h2 | ⟨he2, h2⟩
          · rw [if_pos h2]
          · subst he2
            rw [if_neg (lt_irrefl x), if_neg (lt_irrefl x)]
            exact ih bs cs h1 h2

/-- Swapping the arguments of the locale comparator swaps the result. -/
theorem localeCmp_swap (s t : String) : localeCmp t s = (localeCmp s t).swap := by
  unfold localeCmp
  rw [lexCmp_swap (jsToLower s).data (jsToLower t).data,
      lexCmp_swap (caseKey s).data (caseKey t).data]
  cases lexCmp (jsToLower s).data (jsToLower t).data <;> rfl

/-- The locale order is total. -/
theorem localeLe_total (s t : String) : localeLe s t ∨ localeLe t s := by
  by_cases h : localeCmp s t = Ordering.gt
  · right
    unfold localeLe
    rw [localeCmp_swap, h]
    simp [Ordering.swap]
  · exact Or.inl h

/-- The locale order is transitive. -/
theorem localeLe_trans {s t u : String} (h1 : localeLe s t) (h2 : localeLe t u) :
    localeLe s u := by
  unfold localeLe localeCmp at h1 h2 ⊢
  rcases hst : lexCmp (jsToLower s).data (jsToLower t).data with _ | _ | _
  · rcases htu : lexCmp (jsToLower t).data (jsToLower u).data with _ | _ | _
    · have hsu := lexCmp_lt_trans _ _ _ hst htu
      simp [hsu]
    · have hteq := (lexCmp_eq_iff _ _).mp htu
      have hsu : lexCmp (jsToLower s).data (jsToLower u).data = .lt := by
        rw [← hteq]; exact hst
      simp [hsu]
    · simp only [htu] at h2
      exact absurd rfl h2
  · have hseq := (lexCmp_eq_iff _ _).mp hst
    simp only [hst] at h1
    rcases htu : lexCmp (jsToLower t).data (jsToLower u).data with _ | _ | _
    · have hsu : lexCmp (jsToLower s).data (jsToLower u).data = .lt := by
        rw [hseq]; exact htu
      simp [hsu]
    · have hteq := (lexCmp_eq_iff _ _).mp htu
      have hsu : lexCmp (jsToLower s).data (jsToLower u).data = .eq :=
        (lexCmp_eq_iff _ _).mpr (hseq.trans hteq)
      simp only [hsu]
      simp only [htu] at h2
      rcases hct : lexCmp (caseKey s).data (caseKey t).data with _ | _ | _
      · rcases hcu : lexCmp (caseKey t).data (caseKey u).data with _ | _ | _
        · have hc := lexCmp_lt_trans _ _ _ hct hcu
          simp [hc]
        · have hcueq := (lexCmp_eq_iff _ _).mp hcu
          have hc : lexCmp (caseKey s).data (caseKey u).data = .lt := by
            rw [← hcueq]; exact hct
          simp [hc]
        · exact absurd hcu h2
      · have hcteq := (lexCmp_eq_iff _ _).mp hct
        have hc : lexCmp (caseKey s).data (caseKey u).data
            = lexCmp (caseKey t).data (caseKey u).data := by
          rw [hcteq]
        rw [hc]
        exact h2
      · exact absurd hct h1
    · simp only [htu] at h2
      exact absurd rfl h2
  · simp only [hst] at h1
    exact absurd rfl h1

/-- The PR table is sorted by the locale comparator. -/
theorem updatePersonalRecords_sorted (ws : List Workout) :
    List.Pairwise (fun a b => localeLe a.1 b.1) (updatePersonalRecords ws) := by
  haveI : IsTotal (String × PRRec) (fun a b => localeLe a.1 b.1) :=
    ⟨fun a b => localeLe_total a.1 b.1⟩
  haveI : IsTrans (String × PRRec) (fun a b => localeLe a.1 b.1) :=
    ⟨fun _ _ _ => localeLe_trans⟩
  exact List.sorted_insertionSort _ _

/-- Lookup after a prs-object assignment: the assigned name's record is
  combined, every other name is untouched. -/
theorem lookupName_prInsert (m : String) (r : PRRec) (n : String) :
    ∀ acc, lookupName n (prInsert m r acc)
      = if m = n then prBetter (lookupName n acc) r else lookupName n acc := by
  intro acc
  induction acc with
  | nil =>
    by_cases h : m = n
    · simp [prInsert, lookupName, h, prBetter]
    · simp [prInsert, lookupName, h]
  | cons kp rest ih =>
    obtain ⟨k, p⟩ := kp
    by_cases hkm : k = m
    · subst hkm
      by_cases hkn : k = n
      · subst hkn
        by_cases hw : p.weight < r.weight <;>
          simp [prInsert, lookupName, prBetter, hw]
      · by_cases hw : p.weight < r.weight <;>
          simp [prInsert, lookupName, hkn, hw]
    · by_cases hkn : k = n
      · subst hkn
        have hmn : ¬ m = k := fun h => hkm h.symm
        simp [prInsert, lookupName, hkm, hmn]
      · simp [prInsert, lookupName, hkm, hkn, ih]

/-- A prs-object assignment leaves the key list unchanged when the name is
  present and appends the name otherwise. -/
theorem prInsert_keys (m : String) (r : PRRec) :
    ∀ acc : List (String × PRRec),
      (prInsert m r acc).map Prod.fst
        = if m ∈ acc.map Prod.fst then acc.map Prod.fst
          else acc.map Prod.fst ++ [m] := by
  intro acc
  induction acc with
  | nil => simp [prInsert]
  | cons kp rest ih =>
    obtain ⟨k, p⟩ := kp
    by_cases hkm : k = m
    · subst hkm
      by_cases hw : p.weight < r.weight <;> simp [prInsert, hw]
    · have hmk : ¬ m = k := fun h => hkm h.symm
      by_cases hmem : m ∈ rest.map Prod.fst
      · simp [prInsert, hkm, hmk, hmem, ih]
      · simp [prInsert, hkm, hmk, hmem, ih]

/-- A prs-object assignment preserves distinctness of the keys. -/
theorem prInsert_keys_nodup (m : String) (r : PRRec) {acc : List (String × PRRec)}
    (h : (acc.map Prod.fst).Nodup) : ((prInsert m r acc).map Prod.fst).Nodup := by
  rw [prInsert_keys]
  split
  · exact h
  · next hmem =>
    have h2 : ∀ x : PRRec, (m, x) ∉ acc := fun x hx =>
      hmem (List.mem_map.mpr ⟨(m, x), hx, rfl⟩)
    simpa [List.nodup_append] using ⟨h, h2⟩

/-- Folding the candidate stream preserves distinctness of the keys. -/
theorem prFoldStream_keys_nodup :
    ∀ (l acc : List (String × PRRec)), (acc.map Prod.fst).Nodup →
      ((prFoldStream l acc).map Prod.fst).Nodup := by
  intro l
  induction l with
  | nil => intro acc h; simpa [prFoldStream] using h
  | cons mr rest ih =>
    obtain ⟨m, r⟩ := mr
    intro acc h
    have hstep : prFoldStream ((m, r) :: rest) acc
        = prFoldStream rest (prInsert m r acc) := by
      simp [prFoldStream]
    rw [hstep]
    exact ih _ (prInsert_keys_nodup m r h)

/-- The nested forEach of updatePersonalRecords is the fold of the
  flattened positive-weight candidate stream. -/
theorem prCollect_eq (ws : List Workout) :
    prCollect ws = prFoldStream (prStream ws) [] := by
  suffices h : ∀ (ws : List Workout) (acc : List (String × PRRec)),
      ws.foldl (fun acc w => w.exercises.foldl (fun acc2 e =>
        if 0 < e.weight then prInsert e.exerciseName ⟨e.weight, e.reps, w.date⟩ acc2
        else acc2) acc) acc
      = prFoldStream (prStream ws) acc by
    exact h ws []
  intro ws
  induction ws with
  | nil => intro acc; simp [prStream, prFoldStream]
  | cons w rest ih =>
    intro acc
    rw [List.foldl_cons]
    have hinner : ∀ (exs : List SetEntry) (acc2 : List (String × PRRec)),
        exs.foldl (fun a e => if 0 < e.weight
            then prInsert e.exerciseName ⟨e.weight, e.reps, w.date⟩ a else a) acc2
          = prFoldStream ((exs.filter (fun e => 0 < e.weight)).map
              (fun e => (e.exerciseName, (⟨e.weight, e.reps, w.date⟩ : PRRec)))) acc2 := by
      intro exs
      induction exs with
      | nil => intro acc2; simp [prFoldStream]
      | cons e exs2 ih2 =>
        intro acc2
        by_cases he : 0 < e.weight
        · simp [List.foldl_cons, he, List.filter_cons, ih2, prFoldStream]
        · simp [List.foldl_cons, he, List.filter_cons, ih2]
    rw [hinner, ih]
    have hstream : prStream (w :: rest)
        = ((w.exercises.filter (fun e => 0 < e.weight)).map
            (fun e => (e.exerciseName, (⟨e.weight, e.reps, w.date⟩ : PRRec))))
          ++ prStream rest := by
      simp [prStream]
    rw [hstream]
    simp [prFoldStream, List.foldl_append]

/-- Lookup in the folded stream: each name's record is the fold of its own
  filtered candidates over the initial lookup. -/
theorem lookupName_prFoldStream (n : String) :
    ∀ (l acc : List (String × PRRec)),
      lookupName n (prFoldStream l acc)
        = ((l.filter (fun x => x.1 = n)).map Prod.snd).foldl prBetter
            (lookupName n acc) := by
  intro l
  induction l with
  | nil => intro acc; simp [prFoldStream]
  | cons mr rest ih =>
    obtain ⟨m, r⟩ := mr
    intro acc
    have hstep : prFoldStream ((m, r) :: rest) acc
        = prFoldStream rest (prInsert m r acc) := by
      simp [prFoldStream]
    rw [hstep, ih]
    by_cases hmn : m = n
    · subst hmn
      simp [List.filter_cons, lookupName_prInsert, List.foldl_cons]
    · simp [List.filter_cons, hmn, lookupName_prInsert]

/-- Lookup fails exactly when the name is not among the keys. -/
theorem lookupName_eq_none_iff (n : String) :
    ∀ l : List (String × PRRec), lookupName n l = none ↔ n ∉ l.map Prod.fst := by
  intro l
  induction l with
  | nil => simp [lookupName]
  | cons kp rest ih =>
    obtain ⟨k, p⟩ := kp
    by_cases h : k = n
    · subst h
      simp [lookupName]
    · have hnk : ¬ n = k := fun h2 => h h2.symm
      simp [lookupName, h, hnk, ih]

/-- With distinct keys, lookup finds exactly the listed pair. -/
theorem lookupName_eq_some_iff (n : String) (p : PRRec) :
    ∀ l : List (String × PRRec), (l.map Prod.fst).Nodup →
      (lookupName n l = some p ↔ (n, p) ∈ l) := by
  intro l
  induction l with
  | nil => intro _; simp [lookupName]
  | cons kq rest ih =>
    obtain ⟨k, q⟩ := kq
    intro hnd
    have hnd2 : (rest.map Prod.fst).Nodup := (List.nodup_cons.mp (by simpa using hnd)).2
    have hknotin : k ∉ rest.map Prod.fst := (List.nodup_cons.mp (by simpa using hnd)).1
    by_cases h : k = n
    · subst h
      have hl : lookupName k ((k, q) :: rest) = some q := by simp [lookupName]
      rw [hl]
      constructor
      · intro hp
        have hqp : q = p := Option.some_inj.mp hp
        exact List.mem_cons.mpr (Or.inl (by rw [← hqp]))
      · intro hp
        rcases List.mem_cons.mp hp with h2 | h2
        · rw [Prod.mk.injEq] at h2
          rw [h2.2]
        · exact absurd (List.mem_map.mpr ⟨(k, p), h2, rfl⟩) hknotin
    · have hnk : ¬ n = k := fun h2 => h h2.symm
      simp only [lookupName, if_neg h, List.mem_cons]
      rw [ih hnd2]
      constructor
      · exact fun h2 => Or.inr h2
      · intro h2
        rcases h2 with h3 | h3
        · exfalso
          rw [Prod.mk.injEq] at h3
          exact hnk h3.1
        · exact h3

/-- With distinct keys, lookup is invariant under permutation. -/
theorem lookupName_perm {l l2 : List (String × PRRec)} (hperm : l.Perm l2)
    (hnd : (l.map Prod.fst).Nodup) (n : String) :
    lookupName n l = lookupName n l2 := by
  have hnd2 : (l2.map Prod.fst).Nodup := ((hperm.map Prod.fst).nodup_iff).mp hnd
  cases hl : lookupName n l with
  | none =>
    have h1 := (lookupName_eq_none_iff n l).mp hl
    have h2 : n ∉ l2.map Prod.fst := fun hmem =>
      h1 (((hperm.map Prod.fst).mem_iff).mpr hmem)
    exact ((lookupName_eq_none_iff n l2).mpr h2).symm
  | some p =>
    have h1 := (lookupName_eq_some_iff n p l hnd).mp hl
    have h2 : (n, p) ∈ l2 := hperm.mem_iff.mp h1
    exact ((lookupName_eq_some_iff n p l2 hnd2).mpr h2).symm

/-- C2 (amended): for every distinct exerciseName appearing with positive
  weight in any workout's set entries, the PR table holds the first set
  entry of maximum weight (paired with its parent workout's date) in
  original workout/set iteration order - so ties keep the first encountered
  and a weight of 0 never becomes a record (a name with only zero-weight
  entries is absent).  The rows are sorted by exercise name under the
  locale comparator (localeCompare's default collation: case-insensitive
  primary order with lowercase before uppercase), not by case-sensitive
  code-point order, with pairwise distinct names.  In particular Squat with
  weights [100, 0, 120, 80] in chronological order records weight 120 with
  its reps and date. -/
theorem updatePersonalRecords_spec :
    (∀ (ws : List Workout) (name : String),
      lookupName name (updatePersonalRecords ws) = firstMax (entriesFor name ws)) ∧
    (∀ (ws : List Workout) (name : String),
      entriesFor name ws = [] →
      lookupName name (updatePersonalRecords ws) = none) ∧
    (∀ ws : List Workout,
      List.Pairwise (fun a b => localeLe a.1 b.1) (updatePersonalRecords ws)) ∧
    (∀ ws : List Workout, ((updatePersonalRecords ws).map Prod.fst).Nodup) ∧
    lookupName "Squat" (updatePersonalRecords squatExampleWorkouts)
      = some ⟨120, 3, daysFromCivil 2024 1 4⟩ := by
  have hkeys : ∀ ws : List Workout, ((prCollect ws).map Prod.fst).Nodup := by
    intro ws
    rw [prCollect_eq]
    exact prFoldStream_keys_nodup _ [] (by simp)
  have hperm : ∀ ws : List Workout, (prCollect ws).Perm (updatePersonalRecords ws) :=
    fun ws => (List.perm_insertionSort _ _).symm
  have hmain : ∀ (ws : List Workout) (name : String),
      lookupName name (updatePersonalRecords ws) = firstMax (entriesFor name ws) := by
    intro ws name
    rw [← lookupName_perm (hperm ws) (hkeys ws) name, prCollect_eq,
      lookupName_prFoldStream]
    rfl
  refine ⟨hmain, ?_, ?_, ?_, ?_⟩
  · intro ws name h
    rw [hmain ws name, h]
    rfl
  · intro ws
    exact updatePersonalRecords_sorted ws
  · intro ws
    exact ((hperm ws).map Prod.fst).nodup_iff.mp (hkeys ws)
  · rw [hmain]
    decide

/-- Witness for the C2 amended theorem: a name with no positive-weight entry
  is absent, and the Squat example records 120. -/
theorem updatePersonalRecords_spec_witness :
    lookupName "Bench" (updatePersonalRecords squatExampleWorkouts) = none ∧
    lookupName "Squat" (updatePersonalRecords squatExampleWorkouts)
      = some ⟨120, 3, daysFromCivil 2024 1 4⟩ :=
  ⟨updatePersonalRecords_spec.2.1 squatExampleWorkouts "Bench" (by decide),
   updatePersonalRecords_spec.2.2.2.2⟩

/-- C2 counterexample: with exercises named "a" and "B" the PR table comes
  out in the order [a, B] (localeCompare's collation puts lowercase a before
  uppercase B), which is not sorted in case-sensitive lexicographic
  (code-point) order, where B is smaller than a - refuting the claimed sort
  order. -/
theorem updatePersonalRecords_sortOrder_cex :
    ((updatePersonalRecords mixedCaseWorkouts).map Prod.fst = ["a", "B"]) ∧
    ¬ List.Pairwise (fun x y : String => lexCmp x.data y.data ≠ .gt)
        ((updatePersonalRecords mixedCaseWorkouts).map Prod.fst) := by
  decide

/-- A run starting at a key has length at least 1. -/
theorem chainLen_pos (a : Int) (l : List Int) : 1 ≤ chainLen (a :: l) := by
  cases l with
  | nil => simp [chainLen]
  | cons b t =>
    simp only [chainLen]
    split <;> omega

/-- The best-streak scan computes the spec-side longest run: with a valid
  carried state (temp at least 1, and temp recorded in best unless it is
  still the seed), the final max of best and temp is the max of the incoming
  best, the run through the current position extended by temp, and the
  longest run of the remainder. -/
theorem bestScan_spec :
    ∀ (rest : List Int) (prev : Int) (best temp : Nat),
      1 ≤ temp → (temp = 1 ∨ temp ≤ best) →
      max (bestScan prev rest best temp).1 (bestScan prev rest best temp).2
        = max best (max (temp - 1 + chainLen (prev :: rest)) (longestRunSpec rest)) := by
  intro rest
  induction rest with
  | nil =>
    intro prev best temp h1 h2
    simp only [bestScan, chainLen, longestRunSpec]
    omega
  | cons k rest2 ih =>
    intro prev best temp h1 h2
    by_cases hd : prev - k = 7
    · have hscan : bestScan prev (k :: rest2) best temp
          = bestScan k rest2 (max best (temp + 1)) (temp + 1) := by
        simp [bestScan, hd]
      rw [hscan, ih k (max best (temp + 1)) (temp + 1) (by omega) (Or.inr (by omega))]
      have hc : chainLen (prev :: k :: rest2) = chainLen (k :: rest2) + 1 := by
        simp [chainLen, hd]
      have hc1 := chainLen_pos k rest2
      have hl : longestRunSpec (k :: rest2)
          = max (chainLen (k :: rest2)) (longestRunSpec rest2) := rfl
      rw [hc, hl]
      omega
    · have hscan : bestScan prev (k :: rest2) best temp = bestScan k rest2 best 1 := by
        simp [bestScan, hd]
      rw [hscan, ih k best 1 (le_refl 1) (Or.inl rfl)]
      have hc : chainLen (prev :: k :: rest2) = 1 := by
        simp [chainLen, hd]
      have hc1 := chainLen_pos k rest2
      have hl : longestRunSpec (k :: rest2)
          = max (chainLen (k :: rest2)) (longestRunSpec rest2) := rfl
      rw [hc, hl]
      omega

/-- C4: the best streak equals the spec's description.  For every workout
  list, week-start setting and current date, the best component is the
  maximum of the longest run of distinct descending week keys in which
  consecutive keys differ by exactly 7 days and the current streak; that
  longest run is at least 1 whenever the workout list is non-empty (the seed)
  and the empty workout list yields (0, 0). -/
theorem calculateWeekStreak_best_spec (ws : List Workout) (wsm : Bool) (today : Int) :
    ((calculateWeekStreak ws wsm today).2
        = max (longestRunSpec (uniqueWeeks (if wsm then 1 else 0) ws))
              (calculateWeekStreak ws wsm today).1) ∧
    (ws = [] → calculateWeekStreak ws wsm today = (0, 0)) ∧
    (ws ≠ [] → 1 ≤ longestRunSpec (uniqueWeeks (if wsm then 1 else 0) ws)) := by
  by_cases hws : ws = []
  · subst hws
    refine ⟨?_, fun _ => rfl, fun h => absurd rfl h⟩
    simp [calculateWeekStreak, uniqueWeeks, weekKeysOf, longestRunSpec]
  · have huwne : uniqueWeeks (if wsm then 1 else 0) ws ≠ [] := by
      obtain ⟨w, ws2, rfl⟩ := List.exists_cons_of_ne_nil hws
      intro hnil
      have hmem : weekKey (if wsm then 1 else 0) w.date
          ∈ weekKeysOf (if wsm then 1 else 0) (w :: ws2) := by
        simp [weekKeysOf]
      have hmem2 := (mem_uniqueWeeks _ _ _).mpr hmem
      rw [hnil] at hmem2
      exact List.not_mem_nil _ hmem2
    obtain ⟨u, rest, huw⟩ := List.exists_cons_of_ne_nil huwne
    have hcur : (calculateWeekStreak ws wsm today).1
        = currentLoop (uniqueWeeks (if wsm then 1 else 0) ws)
            (weekKey (if wsm then 1 else 0) today) := by
      simp [calculateWeekStreak, hws]
    have hbest2 : (calculateWeekStreak ws wsm today).2
        = max (max (bestScan u rest 0 1).1 (bestScan u rest 0 1).2)
              ((calculateWeekStreak ws wsm today).1) := by
      rw [hcur]
      simp [calculateWeekStreak, hws, huw]
    refine ⟨?_, fun h => absurd h hws, fun _ => ?_⟩
    · have hscan := bestScan_spec rest u 0 1 (le_refl 1) (Or.inl rfl)
      have hlr : max (bestScan u rest 0 1).1 (bestScan u rest 0 1).2
          = longestRunSpec (u :: rest) := by
        rw [hscan]
        have h3 : longestRunSpec (u :: rest)
            = max (chainLen (u :: rest)) (longestRunSpec rest) := rfl
        have h4 := chainLen_pos u rest
        omega
      rw [hbest2, hlr, huw]
    · rw [huw]
      have h3 : longestRunSpec (u :: rest)
          = max (chainLen (u :: rest)) (longestRunSpec rest) := rfl
      have h4 := chainLen_pos u rest
      omega

/-- Witness for the C4 theorem: the empty list gives (0, 0), and the
  non-empty example has a longest run of at least 1. -/
theorem calculateWeekStreak_best_spec_witness :
    calculateWeekStreak [] true 0 = (0, 0) ∧
    1 ≤ longestRunSpec (uniqueWeeks (if true then 1 else 0) streakExampleWorkouts) :=
  ⟨(calculateWeekStreak_best_spec [] true 0).2.1 rfl,
   (calculateWeekStreak_best_spec streakExampleWorkouts true 0).2.2 (by decide)⟩

/-- A renamed entry never bears the old name when the new name differs. -/
theorem renameEntry_ne_old {old nw : String} (hne : nw ≠ old) (e : SetEntry) :
    (renameEntry old nw e).exerciseName ≠ old := by
  unfold renameEntry
  split
  · simpa using hne
  · next h => simpa using h

/-- Rewriting the first element satisfying p preserves satisfiability of any
  property q that p-elements acquire under f. -/
theorem updateFirst_any {α : Type} (p : α → Bool) (f : α → α) (q : α → Bool)
    (hq : ∀ a, p a = true → q (f a) = true) :
    ∀ l : List α, l.any p = true → (updateFirst p f l).any q = true := by
  intro l
  induction l with
  | nil => simp
  | cons x rest ih =>
    intro h
    unfold updateFirst
    by_cases hx : p x = true
    · rw [if_pos hx]
      simp [hq x hx]
    · rw [if_neg hx]
      simp only [List.any_cons, Bool.or_eq_true] at h ⊢
      rcases h with h | h
      · exact absurd h hx
      · exact Or.inr (ih h)

/-- C1 (amended): for a rename whose (trimmed) new name is nonempty and
  differs from the original, the operation is all-or-nothing, but the
  duplicate check is against every library entry including the one being
  renamed: if any entry - itself included, so in particular on a case-only
  rename - matches the new name case-insensitively, the operation reports a
  duplicate and changes nothing; otherwise it updates the library entry and
  rewrites exerciseName on every SetEntry of every workout that referenced
  the old name, after which no SetEntry bears the old name, every previously
  referencing SetEntry bears the new name, and all other entries are
  untouched. -/
theorem saveExerciseEdit_spec (s : AppState) (old new cat sub vid : String)
    (hfound : s.exercises.any (fun e => e.name = old) = true)
    (hnempty : jsTrim new ≠ "") (hne : jsTrim new ≠ old) :
    (s.exercises.any (fun e => jsToLower e.name = jsToLower (jsTrim new)) = true →
      saveExerciseEdit s old new cat sub vid = (s, .duplicate)) ∧
    (s.exercises.any (fun e => jsToLower e.name = jsToLower (jsTrim new)) = false →
      (saveExerciseEdit s old new cat sub vid).2 = .updated ∧
      ((saveExerciseEdit s old new cat sub vid).1.exercises.any
        (fun e => e.name = jsTrim new)) = true ∧
      (∀ w ∈ (saveExerciseEdit s old new cat sub vid).1.workouts,
        ∀ e ∈ w.exercises, e.exerciseName ≠ old) ∧
      List.Forall₂
        (fun w w2 => w2.id = w.id ∧ w2.date = w.date ∧
          List.Forall₂ (fun e e2 =>
            (e.exerciseName = old → e2 = { e with exerciseName := jsTrim new }) ∧
            (e.exerciseName ≠ old → e2 = e)) w.exercises w2.exercises)
        s.workouts (saveExerciseEdit s old new cat sub vid).1.workouts) := by
  obtain ⟨ex, hexmem, hexname⟩ := List.any_eq_true.mp hfound
  have hexname2 : ex.name = old := by simpa using hexname
  cases hf : s.exercises.find? (fun e => e.name = old) with
  | none =>
    exfalso
    have := List.find?_eq_none.mp hf ex hexmem
    simp [hexname2] at this
  | some efound =>
    constructor
    · intro hdup
      simp only [saveExerciseEdit, hf]
      rw [if_neg hnempty, if_pos ⟨hne, hdup⟩]
    · intro hdup
      have hcond : ¬ (jsTrim new ≠ old ∧
          s.exercises.any
            (fun e => jsToLower e.name = jsToLower (jsTrim new)) = true) := by
        intro hc
        rw [hdup] at hc
        exact Bool.false_ne_true hc.2
      simp only [saveExerciseEdit, hf]
      rw [if_neg hnempty, if_neg hcond, if_pos hne]
      refine ⟨rfl, ?_, ?_, ?_⟩
      · exact updateFirst_any _ _ _ (fun a _ => by simp) s.exercises hfound
      · intro w hw e he
        rcases List.mem_map.mp hw with ⟨w0, hw0, rfl⟩
        rcases List.mem_map.mp he with ⟨e0, he0, rfl⟩
        exact renameEntry_ne_old hne e0
      · rw [List.forall₂_map_right_iff, List.forall₂_same]
        intro w hw
        refine ⟨rfl, rfl, ?_⟩
        rw [List.forall₂_map_right_iff, List.forall₂_same]
        intro e he
        constructor
        · intro hee; simp [renameEntry, hee]
        · intro hee; simp [renameEntry, hee]

/-- Witness for the C1 amended theorem: a conflict-free rename succeeds and
  the library then carries the new name. -/
theorem saveExerciseEdit_spec_witness :
    (saveExerciseEdit squatOnlyState "Squat" "Front Squat" "Legs" "Quadriceps" "").2
      = .updated ∧
    ((saveExerciseEdit squatOnlyState "Squat" "Front Squat" "Legs" "Quadriceps"
      "").1.exercises.any (fun e => e.name = jsTrim "Front Squat")) = true := by
  have h := (saveExerciseEdit_spec squatOnlyState "Squat" "Front Squat" "Legs"
    "Quadriceps" "" (by decide) (by decide) (by decide)).2 (by decide)
  exact ⟨h.1, h.2.1⟩

/-- C1 counterexample: renaming Squat to its case variant squat.  The new
  name differs from the original and no different library exercise collides
  with it case-insensitively, yet the operation reports a duplicate (the
  check at src/app.js line 1093 matches the exercise being renamed itself)
  and leaves the workouts still referencing the old name, though the claim
  promises that after such a rename no SetEntry bears the old name. -/
theorem saveExerciseEdit_caseOnlyRename_cex :
    ("squat" : String) ≠ "Squat" ∧
    (squatOnlyState.exercises.all
      (fun e => e.name = "Squat" ∨ ¬ jsToLower e.name = jsToLower "squat")) = true ∧
    saveExerciseEdit squatOnlyState "Squat" "squat" "Legs" "Quadriceps" ""
      = (squatOnlyState, .duplicate) ∧
    ((saveExerciseEdit squatOnlyState "Squat" "squat" "Legs" "Quadriceps"
      "").1.workouts.any
      (fun w => w.exercises.any (fun e => e.exerciseName = "Squat"))) = true := by
  decide

/-- C9 counterexample: with auto-add enabled, logging a workout whose row
  names the exercise "squat" while the library holds "Squat" inserts the
  case variant: afterwards the library holds two entries equal up to case,
  though the claim says the auto-add path never inserts a name already
  present up to case. -/
theorem autoAdd_caseVariant_cex :
    ((addWorkout squatOnlyState 99 (daysFromCivil 2024 1 3) "W" "" none
        [lowercaseSquatRow]).1.exercises.map (fun e => e.name))
      = ["Squat", "squat"] ∧
    ¬ (((addWorkout squatOnlyState 99 (daysFromCivil 2024 1 3) "W" "" none
        [lowercaseSquatRow]).1.exercises.map (fun e => jsToLower e.name)).Nodup) := by
  decide
